import Mathlib

/-!
Shallow embedding of the Elevator Simulation repository
(ES_entities.py, ES_algorithms.py, ES_simulation.py), and proofs about it.

People and elevators are records; the Python `dict[int, list[Person]]`
values (`waiting`, arrival mappings) are association lists
`List (Nat × List Person)` preserving the dict's key insertion order;
floors are `Nat`.  Mutating loops are folds threading explicit state.
-/

namespace ES

/-- `Person.__init__` from ES_entities.py: start, target, and a wait time
that begins at 0. -/
structure Person where
  start : Nat
  target : Nat
  wait_time : Nat
deriving DecidableEq, Repr

/-- `Elevator.__init__` from ES_entities.py. -/
structure Elevator where
  capacity : Nat
  current_floor : Nat
  passengers : List Person
  target_floor : Nat
deriving DecidableEq, Repr

/-- `Elevator(capacity)`: elevators start at floor 1, targeting floor 1,
with no passengers. -/
def Elevator.new (capacity : Nat) : Elevator :=
  { capacity := capacity, current_floor := 1, passengers := [], target_floor := 1 }

/-- Python `abs(a - b)` on the integers underlying two floor numbers. -/
def absDist (a b : Nat) : Nat :=
  if b ≤ a then a - b else b - a

/-- Python `max` over a non-empty list (0 on the empty list, which Python
would reject; every call site passes a non-empty list). -/
def maxList : List Nat → Nat
  | [] => 0
  | x :: xs => xs.foldl max x

/-- Python `min` over a non-empty list (0 on the empty list, which Python
would reject; every call site passes a non-empty list). -/
def minList : List Nat → Nat
  | [] => 0
  | x :: xs => xs.foldl min x

/-- Python `list.index(x)`: index of the first occurrence of `x`
(`length` when absent; Python raises there, and no call site reaches it). -/
def pyIndex (l : List Nat) (x : Nat) : Nat :=
  match l with
  | [] => 0
  | y :: ys => if y = x then 0 else pyIndex ys x + 1

/-- Read a key of the association dict: value list of the first entry with
this key, `[]` when the key is absent. -/
def getGroup (dic : List (Nat × List Person)) (k : Nat) : List Person :=
  match dic with
  | [] => []
  | (k', ps) :: rest => if k' = k then ps else getGroup rest k

/-- Whether the dict holds the key (Python `k in dic`). -/
def hasKey (dic : List (Nat × List Person)) (k : Nat) : Bool :=
  match dic with
  | [] => false
  | (k', _) :: rest => if k' = k then true else hasKey rest k

/-- `dic[p.start] = [p]` / `dic[p.start].append(p)` of the grouping loops:
append `p` to the entry for `k`, creating the entry at the end (Python dict
insertion order) when the key is new. -/
def dicAppend (dic : List (Nat × List Person)) (k : Nat) (p : Person) :
    List (Nat × List Person) :=
  match dic with
  | [] => [(k, [p])]
  | (k', ps) :: rest =>
      if k' = k then (k', ps ++ [p]) :: rest else (k', ps) :: dicAppend rest k p

/-- The grouping loop shared by the arrival generators
(`for p in people: ...`): group a list of people by their start floor,
keys in order of first appearance, order preserved within each group. -/
def groupByStart (people : List Person) : List (Nat × List Person) :=
  people.foldl (fun dic p => dicAppend dic p.start p) []

/-- `SingleArrivals.generate` (ES_algorithms.py): one person per round,
start floor 1, target `(round_num % (max_floor - 1)) + 2`. -/
def SingleArrivals.generate (max_floor round_num : Nat) :
    List (Nat × List Person) :=
  let tgt_flr := (round_num % (max_floor - 1)) + 2
  let p : Person := { start := 1, target := tgt_flr, wait_time := 0 }
  groupByStart [p]

/-- `FileArrivals.generate` (ES_algorithms.py): the people scheduled for
this round (none when the round has no entry; the source also inserts an
empty entry into `arrival_data` then, which changes no later lookup),
grouped by start floor. -/
def FileArrivals.generate (arrival_data : List (Nat × List Person))
    (round_num : Nat) : List (Nat × List Person) :=
  let people := getGroup arrival_data round_num
  groupByStart people

/-- `EndToEndLoop.update_target_floors` (ES_algorithms.py): floor 1 goes to
`max_floor`, `max_floor` goes to 1, anything else keeps its target. -/
def EndToEndLoop.update_target_floors (elevators : List Elevator)
    (_waiting : List (Nat × List Person)) (max_floor : Nat) : List Elevator :=
  elevators.map fun e =>
    if e.current_floor = 1 then { e with target_floor := max_floor }
    else if e.current_floor = max_floor then { e with target_floor := 1 }
    else e

/-- The `for floor in waiting` collection loop in Case 2 of
`FurthestFloor.update_target_floors`: the floors with a non-empty waiting
list, in the dict's key order. -/
def nonemptyFloors (waiting : List (Nat × List Person)) : List Nat :=
  (waiting.filter fun kv => kv.2.length ≠ 0).map Prod.fst

/-- The body of the `for e in elevators` loop of
`FurthestFloor.update_target_floors` (ES_algorithms.py), for one elevator.
`dist.index(d)` is `pyIndex dist d` (index of the FIRST occurrence). -/
def FurthestFloor.updateOne (waiting : List (Nat × List Person))
    (e : Elevator) : Elevator :=
  if e.passengers.length ≠ 0 then
    let dist := e.passengers.map fun p => absDist e.current_floor p.target
    let max_dist := maxList dist
    let note := dist.filterMap fun d =>
      if max_dist = d then some (pyIndex dist d) else none
    let list_floor := note.map fun index_max_dist =>
      (e.passengers.getD index_max_dist { start := 0, target := 0, wait_time := 0 }).target
    { e with target_floor := minList list_floor }
  else
    if e.target_floor = e.current_floor then
      let f := nonemptyFloors waiting
      if f.length = 0 then { e with target_floor := e.current_floor }
      else
        let dist := f.map fun item => absDist item e.current_floor
        let max_dist := maxList dist
        let note := dist.filterMap fun d =>
          if max_dist = d then some (pyIndex dist d) else none
        let list_floor := note.map fun index_max_dist => f.getD index_max_dist 0
        { e with target_floor := minList list_floor }
    else e

/-- `FurthestFloor.update_target_floors` (ES_algorithms.py): the loop over
the elevators; each iteration reads only `waiting` and its own elevator. -/
def FurthestFloor.update_target_floors (elevators : List Elevator)
    (waiting : List (Nat × List Person)) (_max_floor : Nat) : List Elevator :=
  elevators.map (FurthestFloor.updateOne waiting)

/-- The boarding test of `Simulation.handle_boarding` (ES_simulation.py,
line 137): `((key > p.target) and (e.target_floor <= key)) or
((key < p.target) and (e.target_floor >= key))`. -/
def dirTest (key target_floor : Nat) (p : Person) : Bool :=
  (decide (p.target < key) && decide (target_floor ≤ key)) ||
  (decide (key < p.target) && decide (key ≤ target_floor))

/-- The inner `for p in self.waiting[key]` loop of `handle_boarding`, for
one elevator at floor `key`: threads the elevator (its passenger list
grows) and accumulates the boarded people in order. -/
def boardStep (key : Nat) (acc : Elevator × List Person) (p : Person) :
    Elevator × List Person :=
  let e := acc.1
  if dirTest key e.target_floor p then
    if e.passengers.length < e.capacity then
      ({ e with passengers := e.passengers ++ [p] }, acc.2 ++ [p])
    else acc
  else acc

/-- Scan of one floor's waiting queue by one elevator: returns the updated
elevator and the list of people who boarded, in queue order. -/
def boardScan (key : Nat) (e : Elevator) (queue : List Person) :
    Elevator × List Person :=
  queue.foldl (boardStep key) (e, [])

/-- `self.waiting[f].remove(person)`: erase the first occurrence of the
person from the value list of key `f`. -/
def removeFromWaiting (waiting : List (Nat × List Person)) (f : Nat)
    (p : Person) : List (Nat × List Person) :=
  match waiting with
  | [] => []
  | (k, ps) :: rest =>
      if k = f then (k, ps.erase p) :: rest
      else (k, ps) :: removeFromWaiting rest f p

/-- The removal phase of `handle_boarding` for one elevator: for each
boarded person, in boarding order, remove them from the waiting queue of
the elevator's floor.  (The source keys its `boarded` dict by floor; only
the single key `e.current_floor` ever occurs in it.) -/
def removeBoarded (waiting : List (Nat × List Person)) (key : Nat)
    (boarded : List Person) : List (Nat × List Person) :=
  boarded.foldl (fun w p => removeFromWaiting w key p) waiting

/-- The `for key in self.waiting` loop of `handle_boarding` for one
elevator: the inner scan runs on every key equal to the elevator's current
floor, threading the elevator and the boarded list. -/
def scanAll (waiting : List (Nat × List Person)) (e : Elevator) :
    Elevator × List Person :=
  waiting.foldl
    (fun (st : Elevator × List Person) kv =>
      if st.1.current_floor = kv.1 then
        kv.2.foldl (boardStep kv.1) st
      else st)
    (e, [])

/-- The body of the `for e in self.elevators` loop of `handle_boarding`:
scan every waiting key equal to the elevator's floor (threading the
elevator), then remove the boarded people from the waiting dict. -/
def handleBoardingElev (acc : List Elevator × List (Nat × List Person))
    (e : Elevator) : List Elevator × List (Nat × List Person) :=
  let scanned := scanAll acc.2 e
  let waiting' := removeBoarded acc.2 scanned.1.current_floor scanned.2
  (acc.1 ++ [scanned.1], waiting')

/-- `Simulation.handle_boarding` (ES_simulation.py): each elevator in turn
boards from the waiting queue of its floor, and its boarded people leave
the waiting dict before the next elevator is processed. -/
def handle_boarding (elevators : List Elevator)
    (waiting : List (Nat × List Person)) :
    List Elevator × List (Nat × List Person) :=
  elevators.foldl handleBoardingElev ([], waiting)

/-- The mutable attributes of `Simulation` (ES_simulation.py) that the
round stages read and write.  `reached_dest` is the list the source
appends completed people to. -/
structure SimState where
  elevators : List Elevator
  waiting : List (Nat × List Person)
  total_people : List Person
  reached_dest : List Person
deriving DecidableEq, Repr

/-- `Simulation.__init__` state: `num_elevators` fresh elevators, an empty
waiting list for every floor 1 .. num_floors in ascending key order, no
people yet. -/
def SimState.init (num_floors num_elevators elevator_capacity : Nat) :
    SimState :=
  { elevators := List.replicate num_elevators (Elevator.new elevator_capacity)
    waiting := (List.range num_floors).map fun i => (i + 1, [])
    total_people := []
    reached_dest := [] }

/-- The body of the `for e in self.elevators` loop of
`Simulation.handle_disembarking`: `temp` collects the passengers whose
target is the current floor; they are then erased from the passenger list
one by one.  Returns the updated elevator and `temp`. -/
def disembarkOne (e : Elevator) : Elevator × List Person :=
  let temp := e.passengers.filter fun p => e.current_floor = p.target
  ({ e with passengers := temp.foldl (fun ps p1 => ps.erase p1) e.passengers },
   temp)

/-- `Simulation.handle_disembarking`: each loop iteration touches only its
own elevator and appends its `temp` to `reached_dest`. -/
def handle_disembarking (s : SimState) : SimState :=
  { s with
    elevators := s.elevators.map fun e => (disembarkOne e).1
    reached_dest :=
      s.reached_dest ++ (s.elevators.map fun e => (disembarkOne e).2).flatten }

/-- `self.waiting[key].extend(my_arrivals[key])`: extend the value list of
an existing key of the waiting dict (the simulation's waiting dict holds
every floor of the building, so arrival keys always exist). -/
def extendWaiting (waiting : List (Nat × List Person)) (k : Nat)
    (ps : List Person) : List (Nat × List Person) :=
  match waiting with
  | [] => []
  | (k', l) :: rest =>
      if k' = k then (k', l ++ ps) :: rest
      else (k', l) :: extendWaiting rest k ps

/-- `Simulation.generate_arrivals`: for each key of the generated mapping,
extend the waiting queue of that floor and append the arrivals to
`total_people`. -/
def generate_arrivals (arrivals : List (Nat × List Person)) (s : SimState) :
    SimState :=
  let res := arrivals.foldl
    (fun (acc : List (Nat × List Person) × List Person) kv =>
      (extendWaiting acc.1 kv.1 kv.2, acc.2 ++ kv.2))
    (s.waiting, s.total_people)
  { s with waiting := res.1, total_people := res.2 }

/-- The boarding stage on the simulation state. -/
def board_stage (s : SimState) : SimState :=
  let res := handle_boarding s.elevators s.waiting
  { s with elevators := res.1, waiting := res.2 }

/-- `Simulation.move_elevators`, after the moving algorithm has updated the
target floors: each elevator steps one floor toward its target. -/
def moveOne (e : Elevator) : Elevator :=
  if e.target_floor < e.current_floor then
    { e with current_floor := e.current_floor - 1 }
  else if e.current_floor < e.target_floor then
    { e with current_floor := e.current_floor + 1 }
  else e

/-- A moving algorithm embedded as a function from (elevators, waiting,
max_floor) to the elevators with updated target floors. -/
def MovingAlg := List Elevator → List (Nat × List Person) → Nat → List Elevator

/-- `Simulation.move_elevators`: update the target floors with the moving
algorithm, then move every elevator one floor toward its target. -/
def move_elevators (alg : MovingAlg) (num_floors : Nat) (s : SimState) :
    SimState :=
  let es := alg s.elevators s.waiting num_floors
  { s with elevators := es.map moveOne }

/-- `Simulation.update_wait_times`: every passenger and every waiting
person waits one more round. -/
def update_wait_times (s : SimState) : SimState :=
  { s with
    elevators := s.elevators.map fun e =>
      { e with passengers := e.passengers.map fun p =>
          { p with wait_time := p.wait_time + 1 } }
    waiting := s.waiting.map fun kv =>
      (kv.1, kv.2.map fun p1 => { p1 with wait_time := p1.wait_time + 1 }) }

/-- One iteration of the loop in `Simulation.run`: the five stages in
order (disembark, arrivals, board, retarget-and-move, tick), where `gen`
is the arrival generator applied to the round number. -/
def oneRound (alg : MovingAlg) (gen : Nat → List (Nat × List Person))
    (num_floors : Nat) (s : SimState) (i : Nat) : SimState :=
  update_wait_times
    (move_elevators alg num_floors
      (board_stage
        (generate_arrivals (gen i)
          (handle_disembarking s))))

/-- The statistics record returned by `Simulation._calculate_stats`:
its keys are exactly these five, all integer-valued. -/
structure Stats where
  num_rounds : Int
  total_people : Int
  people_completed : Int
  max_time : Int
  avg_time : Int
deriving DecidableEq, Repr

/-- `Simulation._calculate_stats` (ES_simulation.py): −1 sentinels when
nobody completed, otherwise the max and the integer-truncated mean of the
completed people's wait times (`int(sum_ / len(wait_times))` truncates the
non-negative quotient, i.e. Nat division). -/
def calculate_stats (s : SimState) (num_rounds : Nat) : Stats :=
  if s.reached_dest.length = 0 then
    { num_rounds := num_rounds
      total_people := s.total_people.length
      people_completed := s.reached_dest.length
      max_time := -1
      avg_time := -1 }
  else
    let wait_times := s.reached_dest.map Person.wait_time
    { num_rounds := num_rounds
      total_people := s.total_people.length
      people_completed := s.reached_dest.length
      max_time := maxList wait_times
      avg_time := wait_times.sum / wait_times.length }

/-- `Simulation.run` (ES_simulation.py): `num_rounds` iterations of the
stage sequence on the current state — the loop index restarts at 0 on
every call — followed by `_calculate_stats`.  The source contains no guard
against being called again: it returns the pair of the statistics and the
state the next call would start from. -/
def run (alg : MovingAlg) (gen : Nat → List (Nat × List Person))
    (num_floors : Nat) (num_rounds : Nat) (s : SimState) :
    Stats × SimState :=
  let s' := (List.range num_rounds).foldl (oneRound alg gen num_floors) s
  (calculate_stats s' num_rounds, s')

/-!  Helper lemmas about the Python-style list primitives.  -/

theorem init_le_foldl_max (xs : List Nat) (x : Nat) : x ≤ xs.foldl max x := by
  induction xs generalizing x with
  | nil => exact le_refl x
  | cons z zs ih => exact le_trans (le_max_left x z) (ih (max x z))

theorem mem_le_foldl_max (xs : List Nat) (y : Nat) (hy : y ∈ xs) :
    ∀ x, y ≤ xs.foldl max x := by
  induction hy with
  | head as =>
      intro x
      exact le_trans (le_max_right x y) (init_le_foldl_max as (max x y))
  | tail b hb ih =>
      intro x
      exact ih (max x b)

theorem foldl_max_cases (xs : List Nat) (x : Nat) :
    xs.foldl max x = x ∨ xs.foldl max x ∈ xs := by
  induction xs generalizing x with
  | nil => exact Or.inl rfl
  | cons z zs ih =>
      rcases ih (max x z) with h | h
      · rcases max_choice x z with hm | hm
        · exact Or.inl (by rw [List.foldl_cons, h, hm])
        · refine Or.inr ?_
          rw [List.foldl_cons, h, hm]
          exact List.mem_cons_self z zs
      · exact Or.inr (List.mem_cons_of_mem z h)

theorem maxList_mem {l : List Nat} (h : l ≠ []) : maxList l ∈ l := by
  match l with
  | x :: xs =>
      show xs.foldl max x ∈ x :: xs
      rcases foldl_max_cases xs x with h' | h'
      · rw [h']
        exact List.mem_cons_self x xs
      · exact List.mem_cons_of_mem x h'

theorem le_maxList {l : List Nat} {y : Nat} (hy : y ∈ l) : y ≤ maxList l := by
  match l with
  | x :: xs =>
      show y ≤ xs.foldl max x
      rcases List.mem_cons.mp hy with h | h
      · exact h ▸ init_le_foldl_max xs x
      · exact mem_le_foldl_max xs y h x

theorem foldl_min_cases (xs : List Nat) (x : Nat) :
    xs.foldl min x = x ∨ xs.foldl min x ∈ xs := by
  induction xs generalizing x with
  | nil => exact Or.inl rfl
  | cons z zs ih =>
      rcases ih (min x z) with h | h
      · rcases min_choice x z with hm | hm
        · exact Or.inl (by rw [List.foldl_cons, h, hm])
        · refine Or.inr ?_
          rw [List.foldl_cons, h, hm]
          exact List.mem_cons_self z zs
      · exact Or.inr (List.mem_cons_of_mem z h)

theorem minList_mem {l : List Nat} (h : l ≠ []) : minList l ∈ l := by
  match l with
  | x :: xs =>
      show xs.foldl min x ∈ x :: xs
      rcases foldl_min_cases xs x with h' | h'
      · rw [h']
        exact List.mem_cons_self x xs
      · exact List.mem_cons_of_mem x h'

theorem minList_const {l : List Nat} {v : Nat} (h : l ≠ [])
    (hall : ∀ y ∈ l, y = v) : minList l = v :=
  hall _ (minList_mem h)

theorem pyIndex_lt_length {l : List Nat} {x : Nat} (h : x ∈ l) :
    pyIndex l x < l.length := by
  induction l with
  | nil => cases h
  | cons y ys ih =>
      by_cases hy : y = x
      · simp [pyIndex, hy]
      · rcases List.mem_cons.mp h with h' | h'
        · exact absurd h'.symm hy
        · simpa [pyIndex, hy] using ih h'

theorem getD_pyIndex {l : List Nat} {x d : Nat} (h : x ∈ l) :
    l.getD (pyIndex l x) d = x := by
  induction l with
  | nil => cases h
  | cons y ys ih =>
      by_cases hy : y = x
      · simp [pyIndex, hy]
      · rcases List.mem_cons.mp h with h' | h'
        · exact absurd h'.symm hy
        · simpa [pyIndex, hy] using ih h'

theorem getD_lt_pyIndex {l : List Nat} {x d j : Nat} (hj : j < pyIndex l x) :
    l.getD j d ≠ x := by
  induction l generalizing j with
  | nil => simp [pyIndex] at hj
  | cons y ys ih =>
      by_cases hy : y = x
      · simp [pyIndex, hy] at hj
      · cases j with
        | zero => simpa using hy
        | succ j' =>
            simp only [pyIndex, hy, if_false] at hj
            simpa using ih (Nat.lt_of_succ_lt_succ hj)

theorem getGroup_of_hasKey_false {dic : List (Nat × List Person)} {k : Nat}
    (h : hasKey dic k = false) : getGroup dic k = [] := by
  induction dic with
  | nil => rfl
  | cons kv rest ih =>
      obtain ⟨k', ps⟩ := kv
      by_cases hk : k' = k
      · simp [hasKey, hk] at h
      · simp only [getGroup, hasKey, hk, if_false] at h ⊢
        exact ih h

theorem getGroup_dicAppend (dic : List (Nat × List Person)) (k : Nat)
    (p : Person) (f : Nat) :
    getGroup (dicAppend dic k p) f
      = getGroup dic f ++ (if k = f then [p] else []) := by
  induction dic with
  | nil =>
      by_cases hk : k = f <;> simp [dicAppend, getGroup, hk]
  | cons kv rest ih =>
      obtain ⟨k', ps⟩ := kv
      by_cases hk : k' = k
      · subst hk
        by_cases hf : k' = f <;> simp [dicAppend, getGroup, hf]
      · by_cases hf : k' = f
        · subst hf
          simp [dicAppend, getGroup, hk, Ne.symm hk]
        · simp [dicAppend, getGroup, hk, hf, ih]

theorem getGroup_groupByStart_aux (ps : List Person)
    (dic : List (Nat × List Person)) (f : Nat) :
    getGroup (ps.foldl (fun d p => dicAppend d p.start p) dic) f
      = getGroup dic f ++ ps.filter (fun p => p.start = f) := by
  induction ps generalizing dic with
  | nil => simp
  | cons p rest ih =>
      rw [List.foldl_cons, ih, getGroup_dicAppend, List.append_assoc]
      by_cases hp : p.start = f
      · simp [List.filter_cons, hp]
      · simp [List.filter_cons, hp]

theorem getGroup_groupByStart (ps : List Person) (f : Nat) :
    getGroup (groupByStart ps) f = ps.filter (fun p => p.start = f) := by
  simpa [groupByStart, getGroup] using getGroup_groupByStart_aux ps [] f

/-!  Claim theorems.  -/

/-- Claim C4: for every round `r ≥ 0` and `max_floor ≥ 2`,
`SingleArrivals.generate` (spec name `FixedCycleArrivals`) returns a
mapping with exactly one person, at floor 1, with `wait_time` 0 and target
floor `(r mod (max_floor − 1)) + 2`; for `max_floor = 4`, rounds 0..6 give
targets `[2, 3, 4, 2, 3, 4, 2]`. -/
theorem C4_fixedCycleArrivals (max_floor round_num : Nat)
    (h : 2 ≤ max_floor) :
    SingleArrivals.generate max_floor round_num =
      [(1, [{ start := 1, target := round_num % (max_floor - 1) + 2,
              wait_time := 0 }])]
    ∧ (List.range 7).map
        (fun r => (getGroup (SingleArrivals.generate 4 r) 1).map Person.target)
      = [[2], [3], [4], [2], [3], [4], [2]] :=
  ⟨rfl, by decide⟩

/-- Witness for C4 at `max_floor = 4`, round 1: target `1 % 3 + 2 = 3`. -/
theorem C4_fixedCycleArrivals_witness :
    SingleArrivals.generate 4 1 =
      [(1, [{ start := 1, target := 3, wait_time := 0 }])] :=
  (C4_fixedCycleArrivals 4 1 (by decide)).1

/-- Claim C8: `FileArrivals.generate` (spec name `ScriptedArrivals`) on a
round with no schedule entry returns the empty mapping (and is total, so
it cannot raise); on any round, each floor's group in the result is
exactly the scheduled people whose start is that floor, in schedule
order. -/
theorem C8_scriptedArrivals (arrival_data : List (Nat × List Person))
    (round_num : Nat) :
    (hasKey arrival_data round_num = false →
      FileArrivals.generate arrival_data round_num = [])
    ∧ ∀ floor, getGroup (FileArrivals.generate arrival_data round_num) floor
        = (getGroup arrival_data round_num).filter (fun p => p.start = floor) := by
  constructor
  · intro h
    unfold FileArrivals.generate
    rw [getGroup_of_hasKey_false h]
    rfl
  · intro floor
    exact getGroup_groupByStart _ _

/-- Witness for C8: a schedule holding only round 0; round 3 is unknown
and yields the empty mapping. -/
theorem C8_scriptedArrivals_witness :
    FileArrivals.generate [(0, [{ start := 1, target := 4, wait_time := 0 }])] 3
      = [] :=
  (C8_scriptedArrivals [(0, [{ start := 1, target := 4, wait_time := 0 }])] 3).1 rfl

theorem frame_updateOne (w : List (Nat × List Person)) (e : Elevator) :
    (FurthestFloor.updateOne w e).current_floor = e.current_floor
    ∧ (FurthestFloor.updateOne w e).capacity = e.capacity
    ∧ (FurthestFloor.updateOne w e).passengers = e.passengers := by
  simp only [FurthestFloor.updateOne]
  split_ifs <;> simp

theorem frame_endToEndOne (mf : Nat) (e : Elevator) :
    ((if e.current_floor = 1 then { e with target_floor := mf }
      else if e.current_floor = mf then { e with target_floor := 1 }
      else e) : Elevator).current_floor = e.current_floor
    ∧ ((if e.current_floor = 1 then { e with target_floor := mf }
        else if e.current_floor = mf then { e with target_floor := 1 }
        else e) : Elevator).capacity = e.capacity
    ∧ ((if e.current_floor = 1 then { e with target_floor := mf }
        else if e.current_floor = mf then { e with target_floor := 1 }
        else e) : Elevator).passengers = e.passengers := by
  repeat' split
  all_goals simp

/-- Both moving algorithms leave every elevator's shape (passenger list
and capacity) untouched: the hypothesis form used by the capacity
invariant. -/
def PreservesShape (alg : MovingAlg) : Prop :=
  ∀ es w mf, List.Forall₂
    (fun a b => b.passengers = a.passengers ∧ b.capacity = a.capacity)
    es (alg es w mf)

theorem furthestFloor_preservesShape :
    PreservesShape FurthestFloor.update_target_floors := by
  intro es w mf
  unfold FurthestFloor.update_target_floors
  rw [List.forall₂_map_right_iff]
  exact List.forall₂_same.mpr fun e _ =>
    ⟨(frame_updateOne w e).2.2, (frame_updateOne w e).2.1⟩

theorem endToEndLoop_preservesShape :
    PreservesShape EndToEndLoop.update_target_floors := by
  intro es w mf
  unfold EndToEndLoop.update_target_floors
  rw [List.forall₂_map_right_iff]
  exact List.forall₂_same.mpr fun e _ =>
    ⟨(frame_endToEndOne mf e).2.2, (frame_endToEndOne mf e).2.1⟩

/-- Claim C9: `update_target_floors` of both moving algorithms changes at
most the `target_floor` of each elevator: elevator count, and every
elevator's `current_floor`, `capacity` and `passengers`, are preserved.
(The embedded functions take `waiting` and return only the elevator list —
the source never assigns to `waiting` — so the waiting lists are unchanged
by construction; and as pure functions of their inputs they are
deterministic.) -/
theorem C9_moving_algorithms_frame :
    (∀ es w mf, List.Forall₂
        (fun a b => b.current_floor = a.current_floor
          ∧ b.capacity = a.capacity ∧ b.passengers = a.passengers)
        es (EndToEndLoop.update_target_floors es w mf))
    ∧ (∀ es w mf, List.Forall₂
        (fun a b => b.current_floor = a.current_floor
          ∧ b.capacity = a.capacity ∧ b.passengers = a.passengers)
        es (FurthestFloor.update_target_floors es w mf)) := by
  constructor
  · intro es w mf
    unfold EndToEndLoop.update_target_floors
    rw [List.forall₂_map_right_iff]
    exact List.forall₂_same.mpr fun e _ => frame_endToEndOne mf e
  · intro es w mf
    unfold FurthestFloor.update_target_floors
    rw [List.forall₂_map_right_iff]
    exact List.forall₂_same.mpr fun e _ => frame_updateOne w e

/-- Claim C7: the statistics record has exactly the five integer fields;
`num_rounds` is the round count given, `total_people` counts everyone who
ever arrived, `people_completed` counts the completed people, `max_time`
is the maximum completed wait time and `avg_time` the integer-truncated
mean, both −1 whenever nobody completed. -/
theorem C7_statistics (s : SimState) (n : Nat) :
    (calculate_stats s n).num_rounds = n
    ∧ (calculate_stats s n).total_people = s.total_people.length
    ∧ (calculate_stats s n).people_completed = s.reached_dest.length
    ∧ (s.reached_dest.length = 0 →
        (calculate_stats s n).max_time = -1
        ∧ (calculate_stats s n).avg_time = -1)
    ∧ (s.reached_dest.length ≠ 0 →
        (∃ p ∈ s.reached_dest,
            (calculate_stats s n).max_time = (p.wait_time : Int))
        ∧ (∀ p ∈ s.reached_dest,
            (p.wait_time : Int) ≤ (calculate_stats s n).max_time)
        ∧ (calculate_stats s n).avg_time
            = (((s.reached_dest.map Person.wait_time).sum
                / s.reached_dest.length : Nat) : Int)) := by
  by_cases h : s.reached_dest.length = 0
  · refine ⟨by simp [calculate_stats, h], by simp [calculate_stats, h],
      by simp [calculate_stats, h], fun _ => ⟨by simp [calculate_stats, h],
      by simp [calculate_stats, h]⟩, fun h' => absurd h h'⟩
  · have hne : s.reached_dest ≠ [] := fun hnil => h (by simp [hnil])
    have hmapne : s.reached_dest.map Person.wait_time ≠ [] := by
      simpa using hne
    refine ⟨by simp [calculate_stats, h], by simp [calculate_stats, h],
      by simp [calculate_stats, h], fun h0 => absurd h0 h, fun _ => ?_⟩
    refine ⟨?_, ?_, ?_⟩
    · obtain ⟨p, hp, hpw⟩ :=
        List.mem_map.mp (maxList_mem hmapne)
      exact ⟨p, hp, by simp [calculate_stats, h, hpw]⟩
    · intro p hp
      have := le_maxList (List.mem_map_of_mem Person.wait_time hp)
      simp only [calculate_stats, h, if_false]
      exact_mod_cast this
    · simp [calculate_stats, h]

/-- Witness for C7: an empty run gives both sentinels −1; with completed
wait times 2 and 3 the truncated mean is 2. -/
theorem C7_statistics_witness :
    (calculate_stats
        { elevators := [], waiting := [], total_people := [],
          reached_dest := [] } 3).max_time = -1
    ∧ (calculate_stats
        { elevators := [], waiting := [], total_people := [],
          reached_dest := [{ start := 1, target := 2, wait_time := 2 },
                           { start := 1, target := 3, wait_time := 3 }] } 2).avg_time
        = 2 := by
  constructor
  · exact ((C7_statistics
      { elevators := [], waiting := [], total_people := [],
        reached_dest := [] } 3).2.2.2.1 rfl).1
  · have h := ((C7_statistics
      { elevators := [], waiting := [], total_people := [],
        reached_dest := [{ start := 1, target := 2, wait_time := 2 },
                         { start := 1, target := 3, wait_time := 3 }] } 2).2.2.2.2
      (by decide)).2.2
    rw [h]
    decide

theorem getD_map_lt {f : List Nat} (g : Nat → Nat) {j : Nat}
    (h : j < f.length) : (f.map g).getD j 0 = g (f.getD j 0) := by
  rw [List.getD_eq_getElem _ 0 (by simpa using h), List.getD_eq_getElem _ 0 h]
  exact List.getElem_map g

theorem note_mem_eq {dist : List Nat} {m j : Nat}
    (hj : j ∈ dist.filterMap fun d =>
      if m = d then some (pyIndex dist d) else none) :
    j = pyIndex dist m := by
  rcases List.mem_filterMap.mp hj with ⟨d, _, hsome⟩
  by_cases h : m = d
  · rw [if_pos h] at hsome
    cases hsome
    rw [h]
  · rw [if_neg h] at hsome
    cases hsome

theorem note_ne_nil {dist : List Nat} {m : Nat} (hm : m ∈ dist) :
    dist.filterMap (fun d =>
      if m = d then some (pyIndex dist d) else none) ≠ [] := by
  intro h
  have := List.filterMap_eq_nil_iff.mp h m hm
  simp at this

/-- In a strictly ascending list `f`, the element at the first index
achieving the maximal distance from `c` achieves that maximum and is the
least element among those tied at it. -/
theorem first_max_is_min_tie (c : Nat) (f : List Nat) (hf : f ≠ [])
    (hs : f.Pairwise (· < ·)) :
    f.getD (pyIndex (f.map fun item => absDist item c)
      (maxList (f.map fun item => absDist item c))) 0 ∈ f
    ∧ (∀ x ∈ f, absDist x c
        ≤ absDist (f.getD (pyIndex (f.map fun item => absDist item c)
            (maxList (f.map fun item => absDist item c))) 0) c)
    ∧ (∀ x ∈ f, absDist x c
        = absDist (f.getD (pyIndex (f.map fun item => absDist item c)
            (maxList (f.map fun item => absDist item c))) 0) c →
        f.getD (pyIndex (f.map fun item => absDist item c)
          (maxList (f.map fun item => absDist item c))) 0 ≤ x) := by
  have hmapne : f.map (fun item => absDist item c) ≠ [] := by simpa using hf
  have hmmem := maxList_mem hmapne
  have hi0lt := pyIndex_lt_length hmmem
  have hi0ltf : pyIndex (f.map fun item => absDist item c)
      (maxList (f.map fun item => absDist item c)) < f.length := by
    simpa using hi0lt
  have hkey : absDist (f.getD (pyIndex (f.map fun item => absDist item c)
      (maxList (f.map fun item => absDist item c))) 0) c
      = maxList (f.map fun item => absDist item c) := by
    have h2 := getD_pyIndex (d := 0) hmmem
    rw [getD_map_lt (fun item => absDist item c) hi0ltf] at h2
    exact h2
  refine ⟨?_, ?_, ?_⟩
  · have hmem := List.getElem_mem hi0ltf
    rwa [← List.getD_eq_getElem f 0 hi0ltf] at hmem
  · intro x hx
    have hxle : absDist x c ≤ maxList (f.map fun item => absDist item c) :=
      le_maxList (List.mem_map_of_mem _ hx)
    rw [hkey]
    exact hxle
  · intro x hx htie
    rcases List.mem_iff_getElem.mp hx with ⟨j, hjlt, hjx⟩
    have hxmax : absDist x c = maxList (f.map fun item => absDist item c) :=
      htie.trans hkey
    have hdistj : (f.map fun item => absDist item c).getD j 0
        = maxList (f.map fun item => absDist item c) := by
      rw [getD_map_lt (fun item => absDist item c) hjlt]
      show absDist (f.getD j 0) c = _
      rw [List.getD_eq_getElem f 0 hjlt, hjx]
      exact hxmax
    have hij : pyIndex (f.map fun item => absDist item c)
        (maxList (f.map fun item => absDist item c)) ≤ j := by
      by_contra hlt
      exact getD_lt_pyIndex (Nat.lt_of_not_le hlt) hdistj
    rcases Nat.eq_or_lt_of_le hij with heq | hlt
    · rw [heq, List.getD_eq_getElem f 0 hjlt, hjx]
    · have hstep := List.pairwise_iff_getElem.mp hs _ j hi0ltf hjlt hlt
      rw [List.getD_eq_getElem f 0 hi0ltf, ← hjx]
      exact hstep.le

/-- Reduction of `FurthestFloor.updateOne` in Case 2 (no passengers, idle,
someone waiting somewhere): the new target is the floor at the first index
achieving the maximal distance. -/
theorem updateOne_case2 (e : Elevator) (w : List (Nat × List Person))
    (hp : e.passengers = []) (hidle : e.target_floor = e.current_floor)
    (hf : nonemptyFloors w ≠ []) :
    (FurthestFloor.updateOne w e).target_floor
      = (nonemptyFloors w).getD
          (pyIndex ((nonemptyFloors w).map fun item => absDist item e.current_floor)
            (maxList ((nonemptyFloors w).map fun item => absDist item e.current_floor))) 0 := by
  have h1 : ¬ (e.passengers.length ≠ 0) := by simp [hp]
  have h2 : ¬ ((nonemptyFloors w).length = 0) := by
    simpa [List.length_eq_zero] using hf
  set f := nonemptyFloors w with hfdef
  set dist := f.map fun item => absDist item e.current_floor with hdist
  set m := maxList dist with hm
  have hdistne : dist ≠ [] := by
    rw [hdist]
    simpa using hf
  have hmmem : m ∈ dist := maxList_mem hdistne
  unfold FurthestFloor.updateOne
  rw [if_neg h1, if_pos hidle]
  simp only [← hfdef, ← hdist, ← hm]
  rw [if_neg h2]
  show minList ((dist.filterMap fun d =>
      if m = d then some (pyIndex dist d) else none).map
        fun index_max_dist => f.getD index_max_dist 0)
    = f.getD (pyIndex dist m) 0
  apply minList_const
  · simpa using note_ne_nil hmmem
  · intro y hy
    rcases List.mem_map.mp hy with ⟨j, hj, hjy⟩
    rw [← hjy, note_mem_eq hj]

/-- Reduction of `FurthestFloor.updateOne` when the elevator is empty and
not idle: nothing changes. -/
theorem updateOne_notIdle (e : Elevator) (w : List (Nat × List Person))
    (hp : e.passengers = []) (hne : e.target_floor ≠ e.current_floor) :
    FurthestFloor.updateOne w e = e := by
  have h1 : ¬ (e.passengers.length ≠ 0) := by simp [hp]
  unfold FurthestFloor.updateOne
  rw [if_neg h1, if_neg hne]

/-- Reduction of `FurthestFloor.updateOne` when the elevator is empty and
idle and nobody is waiting anywhere: the elevator stays targeted at its
own floor. -/
theorem updateOne_noWaiting (e : Elevator) (w : List (Nat × List Person))
    (hp : e.passengers = []) (hidle : e.target_floor = e.current_floor)
    (hf : nonemptyFloors w = []) :
    (FurthestFloor.updateOne w e).target_floor = e.current_floor := by
  have h1 : ¬ (e.passengers.length ≠ 0) := by simp [hp]
  unfold FurthestFloor.updateOne
  rw [if_neg h1, if_pos hidle, if_pos (by simp [hf])]

/-- Claim C5: an empty elevator keeps its target unless idle; an idle
empty elevator retargets to a floor with a non-empty waiting list that is
farthest from its current floor, lowest first on distance ties, and stays
put when nobody waits anywhere.  The waiting dict's keys are ascending, as
the simulation builds them.  In particular, idle and empty at floor 3 with
people waiting at floors 1 and 5, the new target is floor 1. -/
theorem C5_farthestDemand_no_passengers (e : Elevator)
    (w : List (Nat × List Person)) (hp : e.passengers = [])
    (hs : w.Pairwise fun a b => a.1 < b.1) :
    (e.target_floor ≠ e.current_floor → FurthestFloor.updateOne w e = e)
    ∧ (e.target_floor = e.current_floor → nonemptyFloors w = [] →
        (FurthestFloor.updateOne w e).target_floor = e.current_floor)
    ∧ (e.target_floor = e.current_floor → nonemptyFloors w ≠ [] →
        (FurthestFloor.updateOne w e).target_floor ∈ nonemptyFloors w
        ∧ (∀ x ∈ nonemptyFloors w,
            absDist x e.current_floor
              ≤ absDist (FurthestFloor.updateOne w e).target_floor e.current_floor)
        ∧ (∀ x ∈ nonemptyFloors w,
            absDist x e.current_floor
              = absDist (FurthestFloor.updateOne w e).target_floor e.current_floor →
            (FurthestFloor.updateOne w e).target_floor ≤ x))
    ∧ (FurthestFloor.updateOne
        [(1, [{ start := 1, target := 3, wait_time := 0 }]), (2, []), (3, []),
         (4, []), (5, [{ start := 5, target := 3, wait_time := 0 }])]
        { capacity := 1, current_floor := 3, passengers := [],
          target_floor := 3 }).target_floor = 1 := by
  refine ⟨fun hne => updateOne_notIdle e w hp hne,
    fun hidle hf => updateOne_noWaiting e w hp hidle hf,
    fun hidle hf => ?_, by decide⟩
  have hsf : (nonemptyFloors w).Pairwise (· < ·) := by
    unfold nonemptyFloors
    rw [List.pairwise_map]
    exact (hs.filter _)
  have hred := updateOne_case2 e w hp hidle hf
  have hmain := first_max_is_min_tie e.current_floor (nonemptyFloors w) hf hsf
  rw [hred]
  exact hmain

/-- Witness for C5: the claim's own example — idle empty elevator at
floor 3, people waiting at floors 1 and 5 — retargets to floor 1. -/
theorem C5_farthestDemand_no_passengers_witness :
    (FurthestFloor.updateOne
        [(1, [{ start := 1, target := 3, wait_time := 0 }]), (2, []), (3, []),
         (4, []), (5, [{ start := 5, target := 3, wait_time := 0 }])]
        { capacity := 1, current_floor := 3, passengers := [],
          target_floor := 3 }).target_floor = 1 :=
  (C5_farthestDemand_no_passengers
    { capacity := 1, current_floor := 3, passengers := [], target_floor := 3 }
    [(1, [{ start := 1, target := 3, wait_time := 0 }]), (2, []), (3, []),
     (4, []), (5, [{ start := 5, target := 3, wait_time := 0 }])]
    rfl (by decide)).2.2.2

theorem boardStep_pos (key : Nat) (acc : Elevator × List Person) (p : Person)
    (hd : dirTest key acc.1.target_floor p = true)
    (hc : acc.1.passengers.length < acc.1.capacity) :
    boardStep key acc p
      = ({ acc.1 with passengers := acc.1.passengers ++ [p] }, acc.2 ++ [p]) := by
  unfold boardStep
  rw [if_pos hd, if_pos hc]

theorem boardStep_skip (key : Nat) (acc : Elevator × List Person) (p : Person)
    (h : dirTest key acc.1.target_floor p = false
      ∨ ¬ acc.1.passengers.length < acc.1.capacity) :
    boardStep key acc p = acc := by
  unfold boardStep
  rcases h with h | h
  · rw [if_neg (by simp [h])]
  · by_cases hd : dirTest key acc.1.target_floor p = true
    · rw [if_pos hd, if_neg h]
    · rw [if_neg hd]

theorem boardStep_frame (key : Nat) (acc : Elevator × List Person)
    (p : Person) :
    (boardStep key acc p).1.current_floor = acc.1.current_floor
    ∧ (boardStep key acc p).1.capacity = acc.1.capacity
    ∧ (boardStep key acc p).1.target_floor = acc.1.target_floor := by
  simp only [boardStep]
  split_ifs <;> simp

theorem boardFold_frame (key : Nat) (queue : List Person)
    (acc : Elevator × List Person) :
    (queue.foldl (boardStep key) acc).1.current_floor = acc.1.current_floor
    ∧ (queue.foldl (boardStep key) acc).1.capacity = acc.1.capacity
    ∧ (queue.foldl (boardStep key) acc).1.target_floor = acc.1.target_floor := by
  induction queue generalizing acc with
  | nil => exact ⟨rfl, rfl, rfl⟩
  | cons p rest ih =>
      rw [List.foldl_cons]
      refine ⟨?_, ?_, ?_⟩
      · rw [(ih (boardStep key acc p)).1, (boardStep_frame key acc p).1]
      · rw [(ih (boardStep key acc p)).2.1, (boardStep_frame key acc p).2.1]
      · rw [(ih (boardStep key acc p)).2.2, (boardStep_frame key acc p).2.2]

theorem boardFold_delta (key : Nat) (queue : List Person)
    (acc : Elevator × List Person) :
    ∃ B, (queue.foldl (boardStep key) acc).1.passengers
        = acc.1.passengers ++ B
      ∧ (queue.foldl (boardStep key) acc).2 = acc.2 ++ B
      ∧ B.Sublist queue := by
  induction queue generalizing acc with
  | nil => exact ⟨[], by simp, by simp, List.Sublist.refl []⟩
  | cons p rest ih =>
      by_cases hd : dirTest key acc.1.target_floor p = true
      · by_cases hc : acc.1.passengers.length < acc.1.capacity
        · rcases ih (boardStep key acc p) with ⟨B, h1, h2, h3⟩
          refine ⟨p :: B, ?_, ?_, h3.cons₂ p⟩
          · rw [List.foldl_cons, h1, boardStep_pos key acc p hd hc]
            simp
          · rw [List.foldl_cons, h2, boardStep_pos key acc p hd hc]
            simp
        · rcases ih acc with ⟨B, h1, h2, h3⟩
          rw [List.foldl_cons, boardStep_skip key acc p (Or.inr hc)]
          exact ⟨B, h1, h2, h3.cons p⟩
      · rcases ih acc with ⟨B, h1, h2, h3⟩
        rw [List.foldl_cons,
          boardStep_skip key acc p (Or.inl (by simpa using hd))]
        exact ⟨B, h1, h2, h3.cons p⟩

theorem boardScan_passengers (key : Nat) (e : Elevator)
    (queue : List Person) :
    (boardScan key e queue).1.passengers
      = e.passengers ++ (boardScan key e queue).2 := by
  rcases boardFold_delta key queue (e, []) with ⟨B, h1, h2, _⟩
  unfold boardScan
  rw [h1, h2]
  rfl

theorem boardScan_sublist (key : Nat) (e : Elevator) (queue : List Person) :
    (boardScan key e queue).2.Sublist queue := by
  rcases boardFold_delta key queue (e, []) with ⟨B, _, h2, h3⟩
  unfold boardScan
  rw [h2]
  simpa using h3

theorem boardScan_take_succ (key : Nat) (e : Elevator) (queue : List Person)
    (i : Nat) (h : i < queue.length) :
    boardScan key e (queue.take (i + 1))
      = boardStep key (boardScan key e (queue.take i)) queue[i] := by
  unfold boardScan
  rw [List.take_succ, List.getElem?_eq_getElem h, Option.toList_some,
    List.foldl_append, List.foldl_cons, List.foldl_nil]

theorem boarded_dirTest (key : Nat) (queue : List Person)
    (acc : Elevator × List Person) (p : Person)
    (hp : p ∈ (queue.foldl (boardStep key) acc).2) :
    p ∈ acc.2 ∨ dirTest key acc.1.target_floor p = true := by
  induction queue generalizing acc with
  | nil => exact Or.inl hp
  | cons q rest ih =>
      rw [List.foldl_cons] at hp
      rcases ih (boardStep key acc q) hp with h | h
      · by_cases hd : dirTest key acc.1.target_floor q = true
        · by_cases hc : acc.1.passengers.length < acc.1.capacity
          · rw [boardStep_pos key acc q hd hc] at h
            rcases List.mem_append.mp h with h' | h'
            · exact Or.inl h'
            · right
              rw [List.mem_singleton.mp h']
              exact hd
          · rw [boardStep_skip key acc q (Or.inr hc)] at h
            exact Or.inl h
        · rw [boardStep_skip key acc q
            (Or.inl (Bool.eq_false_iff.mpr hd))] at h
          exact Or.inl h
      · right
        rwa [(boardStep_frame key acc q).2.2] at h

theorem getGroup_removeFromWaiting_self (w : List (Nat × List Person))
    (k : Nat) (p : Person) :
    getGroup (removeFromWaiting w k p) k = (getGroup w k).erase p := by
  induction w with
  | nil => rfl
  | cons kv rest ih =>
      obtain ⟨k', ps⟩ := kv
      by_cases hk : k' = k
      · simp [removeFromWaiting, getGroup, hk]
      · simp [removeFromWaiting, getGroup, hk, ih]

theorem getGroup_removeFromWaiting_other (w : List (Nat × List Person))
    (k k' : Nat) (hne : k' ≠ k) (p : Person) :
    getGroup (removeFromWaiting w k p) k' = getGroup w k' := by
  induction w with
  | nil => rfl
  | cons kv rest ih =>
      obtain ⟨k0, ps⟩ := kv
      by_cases hk : k0 = k
      · subst hk
        simp [removeFromWaiting, getGroup, Ne.symm hne]
      · by_cases hk' : k0 = k'
        · simp [removeFromWaiting, getGroup, hk, hk', hne]
        · simp [removeFromWaiting, getGroup, hk, hk', ih]

theorem getGroup_removeBoarded_self (w : List (Nat × List Person)) (k : Nat)
    (bs : List Person) :
    getGroup (removeBoarded w k bs) k
      = bs.foldl (fun q p => q.erase p) (getGroup w k) := by
  induction bs generalizing w with
  | nil => rfl
  | cons b bs ih =>
      show getGroup (removeBoarded (removeFromWaiting w k b) k bs) k = _
      rw [ih (removeFromWaiting w k b), getGroup_removeFromWaiting_self]
      rfl

theorem perm_boarded_remaining {B q : List Person} (h : B.Sublist q) :
    q.Perm (B ++ B.foldl (fun l p => l.erase p) q) := by
  induction B generalizing q with
  | nil => simp
  | cons b B ih =>
      have hbq : b ∈ q := h.subset (List.mem_cons_self b B)
      have hsub : B.Sublist (q.erase b) := by
        have h2 := h.erase b
        simpa using h2
      have hperm := ih hsub
      exact (List.perm_cons_erase hbq).trans (hperm.cons b)

theorem scanFold_skip (rest : List (Nat × List Person))
    (st : Elevator × List Person)
    (h : ∀ kv ∈ rest, st.1.current_floor ≠ kv.1) :
    rest.foldl
      (fun (st : Elevator × List Person) kv =>
        if st.1.current_floor = kv.1 then kv.2.foldl (boardStep kv.1) st
        else st) st = st := by
  induction rest with
  | nil => rfl
  | cons kv rest ih =>
      rw [List.foldl_cons, if_neg (h kv (List.mem_cons_self kv rest))]
      exact ih fun kv' h' => h kv' (List.mem_cons_of_mem kv h')

theorem scanAll_eq_boardScan (w : List (Nat × List Person)) (e : Elevator)
    (hkeys : (w.map Prod.fst).Nodup) :
    scanAll w e = boardScan e.current_floor e (getGroup w e.current_floor) := by
  induction w with
  | nil => rfl
  | cons kv rest ih =>
      obtain ⟨k, q⟩ := kv
      rw [List.map_cons, List.nodup_cons] at hkeys
      by_cases hk : e.current_floor = k
      · show List.foldl _ (if e.current_floor = k then q.foldl (boardStep k) (e, []) else (e, [])) rest = _
        rw [if_pos hk]
        have hskip : ∀ kv' ∈ rest,
            (q.foldl (boardStep k) (e, [])).1.current_floor ≠ kv'.1 := by
          intro kv' h'
          rw [(boardFold_frame k q (e, [])).1]
          show e.current_floor ≠ kv'.1
          rw [hk]
          intro hcontr
          apply hkeys.1
          rw [hcontr]
          exact List.mem_map.mpr ⟨kv', h', rfl⟩
        rw [scanFold_skip rest _ hskip]
        show q.foldl (boardStep k) (e, [])
          = boardScan e.current_floor e (getGroup ((k, q) :: rest) e.current_floor)
        rw [show getGroup ((k, q) :: rest) e.current_floor = q by
          simp [getGroup, hk.symm]]
        unfold boardScan
        rw [hk]
      · show List.foldl _ (if e.current_floor = k then q.foldl (boardStep k) (e, []) else (e, [])) rest = _
        rw [if_neg hk]
        have hk' : ¬ (k = e.current_floor) := fun h2 => hk h2.symm
        rw [show getGroup ((k, q) :: rest) e.current_floor = getGroup rest e.current_floor by
          simp [getGroup, hk']]
        exact ih hkeys.2

theorem boardScan_frame (key : Nat) (e : Elevator) (queue : List Person) :
    (boardScan key e queue).1.current_floor = e.current_floor
    ∧ (boardScan key e queue).1.capacity = e.capacity
    ∧ (boardScan key e queue).1.target_floor = e.target_floor :=
  boardFold_frame key queue (e, [])

theorem handleBoardingElev_spec (es : List Elevator)
    (w : List (Nat × List Person)) (e : Elevator)
    (hkeys : (w.map Prod.fst).Nodup) :
    handleBoardingElev (es, w) e
      = (es ++ [(boardScan e.current_floor e (getGroup w e.current_floor)).1],
         removeBoarded w e.current_floor
           (boardScan e.current_floor e (getGroup w e.current_floor)).2) := by
  simp only [handleBoardingElev]
  rw [scanAll_eq_boardScan w e hkeys,
    (boardScan_frame e.current_floor e (getGroup w e.current_floor)).1]

/-- Claim C2: during the Board stage each elevator scans the waiting queue
of its own floor in list order; a person boards exactly when the direction
test passes and there is spare capacity at the moment of consideration;
the boarded people join the passenger list in order and leave the waiting
queue only after the whole scan, the skipped people remaining (the old
queue is a permutation of boarded ++ remaining); and a person wanting to
go up never boards an elevator targeting a floor below them. -/
theorem C2_boarding (es : List Elevator) (e : Elevator)
    (w : List (Nat × List Person)) (hkeys : (w.map Prod.fst).Nodup) :
    handleBoardingElev (es, w) e
      = (es ++ [(boardScan e.current_floor e (getGroup w e.current_floor)).1],
         removeBoarded w e.current_floor
           (boardScan e.current_floor e (getGroup w e.current_floor)).2)
    ∧ (boardScan e.current_floor e (getGroup w e.current_floor)).1.passengers
        = e.passengers ++ (boardScan e.current_floor e (getGroup w e.current_floor)).2
    ∧ (∀ (queue : List Person) (i : Nat) (h : i < queue.length),
        (boardScan e.current_floor e (queue.take (i + 1))).2
          = (boardScan e.current_floor e (queue.take i)).2
            ++ (if dirTest e.current_floor e.target_floor queue[i] = true
                  ∧ (boardScan e.current_floor e (queue.take i)).1.passengers.length
                    < e.capacity
                then [queue[i]] else []))
    ∧ (getGroup w e.current_floor).Perm
        ((boardScan e.current_floor e (getGroup w e.current_floor)).2
          ++ getGroup (handleBoardingElev (es, w) e).2 e.current_floor)
    ∧ (∀ p ∈ (boardScan e.current_floor e (getGroup w e.current_floor)).2,
        e.current_floor < p.target → e.current_floor ≤ e.target_floor) := by
  refine ⟨handleBoardingElev_spec es w e hkeys,
    boardScan_passengers _ _ _, ?_, ?_, ?_⟩
  · intro queue i h
    rw [boardScan_take_succ e.current_floor e queue i h]
    have hframe := boardScan_frame e.current_floor e (queue.take i)
    by_cases hd : dirTest e.current_floor e.target_floor queue[i] = true
    · by_cases hc : (boardScan e.current_floor e (queue.take i)).1.passengers.length
          < e.capacity
      · rw [boardStep_pos e.current_floor _ queue[i]
          (by rw [hframe.2.2]; exact hd)
          (by rw [hframe.2.1]; exact hc)]
        rw [if_pos ⟨hd, hc⟩]
      · rw [boardStep_skip e.current_floor _ queue[i]
          (Or.inr (by rw [hframe.2.1]; exact hc))]
        rw [if_neg (by intro hcontr; exact hc hcontr.2)]
        rw [List.append_nil]
    · rw [boardStep_skip e.current_floor _ queue[i]
        (Or.inl (by rw [hframe.2.2]; simpa using hd))]
      rw [if_neg (by intro hcontr; exact hd hcontr.1)]
      rw [List.append_nil]
  · rw [handleBoardingElev_spec es w e hkeys]
    show (getGroup w e.current_floor).Perm
      ((boardScan e.current_floor e (getGroup w e.current_floor)).2
        ++ getGroup (removeBoarded w e.current_floor
            (boardScan e.current_floor e (getGroup w e.current_floor)).2)
          e.current_floor)
    rw [getGroup_removeBoarded_self]
    exact perm_boarded_remaining (boardScan_sublist _ _ _)
  · intro p hp hup
    rcases boarded_dirTest e.current_floor (getGroup w e.current_floor) (e, []) p hp with h | h
    · cases h
    · simp only [dirTest, Bool.or_eq_true, Bool.and_eq_true,
        decide_eq_true_eq] at h
      rcases h with ⟨h1, _⟩ | ⟨_, h2⟩
      · omega
      · exact h2

/-- Witness for C2: one elevator of capacity 1, idle at floor 1, with two
people waiting there: the first boards, the second is skipped and stays
waiting. -/
theorem C2_boarding_witness :
    handleBoardingElev
      ([], [(1, [{ start := 1, target := 2, wait_time := 0 },
                 { start := 1, target := 3, wait_time := 0 }]), (2, []), (3, [])])
      (Elevator.new 1)
      = ([{ capacity := 1, current_floor := 1,
            passengers := [{ start := 1, target := 2, wait_time := 0 }],
            target_floor := 1 }],
         [(1, [{ start := 1, target := 3, wait_time := 0 }]), (2, []), (3, [])]) :=
  ((C2_boarding []
      (Elevator.new 1)
      [(1, [{ start := 1, target := 2, wait_time := 0 },
            { start := 1, target := 3, wait_time := 0 }]), (2, []), (3, [])]
      (by decide)).1).trans (by decide)

theorem boardFold_always (key : Nat) (queue : List Person)
    (st : Elevator × List Person)
    (h : ∀ p ∈ queue, dirTest key st.1.target_floor p = true) :
    (queue.foldl (boardStep key) st).2
      = st.2 ++ queue.take (st.1.capacity - st.1.passengers.length) := by
  induction queue generalizing st with
  | nil => simp
  | cons p rest ih =>
      have hd := h p (List.mem_cons_self p rest)
      by_cases hc : st.1.passengers.length < st.1.capacity
      · rw [List.foldl_cons, boardStep_pos key st p hd hc]
        rw [ih ({ st.1 with passengers := st.1.passengers ++ [p] }, st.2 ++ [p])
          (fun q hq => h q (List.mem_cons_of_mem p hq))]
        have hcap : st.1.capacity - st.1.passengers.length
            = (st.1.capacity - (st.1.passengers.length + 1)) + 1 := by omega
        rw [hcap, List.take_succ_cons]
        simp
      · rw [List.foldl_cons, boardStep_skip key st p (Or.inr hc)]
        rw [ih st (fun q hq => h q (List.mem_cons_of_mem p hq))]
        have hcap : st.1.capacity - st.1.passengers.length = 0 := by omega
        rw [hcap]
        simp [hcap]

/-- Claim C10: an idle elevator (target = current floor) passes the
direction test for every waiting person whose target is another floor, in
either direction; so during the Board stage — which `oneRound` runs
before the retarget-and-move stage — it boards exactly the first
capacity-minus-load people of its floor's queue. -/
theorem C10_idle_boards_both_directions (e : Elevator) (queue : List Person)
    (hidle : e.target_floor = e.current_floor)
    (ht : ∀ p ∈ queue, p.target ≠ e.current_floor) :
    (∀ p ∈ queue, dirTest e.current_floor e.target_floor p = true)
    ∧ (boardScan e.current_floor e queue).2
        = queue.take (e.capacity - e.passengers.length) := by
  have hall : ∀ p ∈ queue, dirTest e.current_floor e.target_floor p = true := by
    intro p hp
    have hne := ht p hp
    simp only [dirTest, hidle, Bool.or_eq_true, Bool.and_eq_true,
      decide_eq_true_eq]
    omega
  refine ⟨hall, ?_⟩
  have h2 := boardFold_always e.current_floor queue (e, []) hall
  simpa using h2

/-- Witness for C10: idle elevator of capacity 2 at floor 2; one person
wants up (to 3), one wants down (to 1); both board. -/
theorem C10_idle_boards_both_directions_witness :
    (boardScan 2
      { capacity := 2, current_floor := 2, passengers := [], target_floor := 2 }
      [{ start := 2, target := 3, wait_time := 0 },
       { start := 2, target := 1, wait_time := 0 }]).2
      = [{ start := 2, target := 3, wait_time := 0 },
         { start := 2, target := 1, wait_time := 0 }] :=
  ((C10_idle_boards_both_directions
      { capacity := 2, current_floor := 2, passengers := [], target_floor := 2 }
      [{ start := 2, target := 3, wait_time := 0 },
       { start := 2, target := 1, wait_time := 0 }]
      rfl (by decide)).2).trans rfl

/-- Claim C1 fails on the code: with an elevator at floor 3 whose
passengers target floors 5 and 1 — both at distance 2, a tie whose lowest
candidate is 1 — `FurthestFloor.update_target_floors` sets the target to
5, the target of the FIRST maximal-distance passenger, because
`dist.index(d)` always returns the first index of the maximal distance.
The class docstring demands the lowest floor on ties. -/
theorem C1_farthestDemand_tie_bug :
    (FurthestFloor.update_target_floors
        [{ capacity := 2, current_floor := 3,
           passengers := [{ start := 1, target := 5, wait_time := 0 },
                          { start := 6, target := 1, wait_time := 0 }],
           target_floor := 3 }] [] 6).map Elevator.target_floor = [5]
    ∧ absDist 3 5 = absDist 3 1 ∧ (1 : Nat) < 5 := by
  decide

/-- Elevator-capacity invariant of Claim C3. -/
def CapOK (s : SimState) : Prop :=
  ∀ e ∈ s.elevators, e.passengers.length ≤ e.capacity

theorem foldl_erase_sublist (bs l : List Person) :
    (bs.foldl (fun ps p1 => ps.erase p1) l).Sublist l := by
  induction bs generalizing l with
  | nil => exact List.Sublist.refl l
  | cons b bs ih => exact (ih (l.erase b)).trans (List.erase_sublist b l)

theorem CapOK_disembark {s : SimState} (hs : CapOK s) :
    CapOK (handle_disembarking s) := by
  intro x hx
  rcases List.mem_map.mp hx with ⟨e, he, rfl⟩
  have h1 : (disembarkOne e).1.passengers.Sublist e.passengers :=
    foldl_erase_sublist _ _
  exact le_trans h1.length_le (hs e he)

theorem CapOK_arrivals {s : SimState} (a : List (Nat × List Person))
    (hs : CapOK s) : CapOK (generate_arrivals a s) := hs

theorem boardStep_cap (key : Nat) (acc : Elevator × List Person) (p : Person)
    (h : acc.1.passengers.length ≤ acc.1.capacity) :
    (boardStep key acc p).1.passengers.length
      ≤ (boardStep key acc p).1.capacity := by
  simp only [boardStep]
  split_ifs with h1 h2
  · simpa using h2
  · exact h
  · exact h

theorem boardFold_cap (key : Nat) (queue : List Person)
    (acc : Elevator × List Person)
    (h : acc.1.passengers.length ≤ acc.1.capacity) :
    (queue.foldl (boardStep key) acc).1.passengers.length
      ≤ (queue.foldl (boardStep key) acc).1.capacity := by
  induction queue generalizing acc with
  | nil => exact h
  | cons p rest ih => exact ih _ (boardStep_cap key acc p h)

theorem scanFold_cap (w : List (Nat × List Person))
    (st : Elevator × List Person)
    (h : st.1.passengers.length ≤ st.1.capacity) :
    ((w.foldl
      (fun (st : Elevator × List Person) kv =>
        if st.1.current_floor = kv.1 then kv.2.foldl (boardStep kv.1) st
        else st) st).1).passengers.length
      ≤ ((w.foldl
      (fun (st : Elevator × List Person) kv =>
        if st.1.current_floor = kv.1 then kv.2.foldl (boardStep kv.1) st
        else st) st).1).capacity := by
  induction w generalizing st with
  | nil => exact h
  | cons kv rest ih =>
      simp only [List.foldl_cons]
      by_cases hc : st.1.current_floor = kv.1
      · rw [if_pos hc]
        exact ih _ (boardFold_cap kv.1 kv.2 st h)
      · rw [if_neg hc]
        exact ih _ h

theorem CapOK_boardFoldElevs (es : List Elevator)
    (acc : List Elevator × List (Nat × List Person))
    (h1 : ∀ x ∈ acc.1, x.passengers.length ≤ x.capacity)
    (h2 : ∀ x ∈ es, x.passengers.length ≤ x.capacity) :
    ∀ x ∈ (es.foldl handleBoardingElev acc).1,
      x.passengers.length ≤ x.capacity := by
  induction es generalizing acc with
  | nil => exact h1
  | cons e rest ih =>
      intro x hx
      rw [List.foldl_cons] at hx
      refine ih (handleBoardingElev acc e) ?_
        (fun y hy => h2 y (List.mem_cons_of_mem e hy)) x hx
      intro y hy
      have hy' : y ∈ acc.1 ++ [(scanAll acc.2 e).1] := by
        simpa [handleBoardingElev] using hy
      rcases List.mem_append.mp hy' with h | h
      · exact h1 y h
      · rw [List.mem_singleton.mp h]
        exact scanFold_cap acc.2 (e, []) (h2 e (List.mem_cons_self e rest))

theorem CapOK_board {s : SimState} (hs : CapOK s) : CapOK (board_stage s) := by
  intro x hx
  exact CapOK_boardFoldElevs s.elevators ([], s.waiting)
    (by intro y hy; cases hy) hs x hx

theorem moveOne_frame (e : Elevator) :
    (moveOne e).passengers = e.passengers
    ∧ (moveOne e).capacity = e.capacity := by
  simp only [moveOne]
  split_ifs <;> simp

theorem forall₂_exists_left {R : Elevator → Elevator → Prop} :
    ∀ {l₁ l₂ : List Elevator}, List.Forall₂ R l₁ l₂ →
      ∀ b ∈ l₂, ∃ a ∈ l₁, R a b := by
  intro l₁ l₂ h
  induction h with
  | nil => intro b hb; cases hb
  | cons hR hrest ih =>
      intro b hb
      rcases List.mem_cons.mp hb with h | h
      · exact ⟨_, List.mem_cons_self _ _, h ▸ hR⟩
      · rcases ih b h with ⟨a, ha, hRa⟩
        exact ⟨a, List.mem_cons_of_mem _ ha, hRa⟩

theorem CapOK_move {s : SimState} (alg : MovingAlg) (nf : Nat)
    (halg : PreservesShape alg) (hs : CapOK s) :
    CapOK (move_elevators alg nf s) := by
  intro x hx
  have hx' : x ∈ (alg s.elevators s.waiting nf).map moveOne := hx
  rcases List.mem_map.mp hx' with ⟨b, hb, rfl⟩
  rcases forall₂_exists_left (halg s.elevators s.waiting nf) b hb with
    ⟨a, ha, hpass, hcap⟩
  rw [(moveOne_frame b).1, (moveOne_frame b).2, hpass, hcap]
  exact hs a ha

theorem CapOK_tick {s : SimState} (hs : CapOK s) :
    CapOK (update_wait_times s) := by
  intro x hx
  rcases List.mem_map.mp hx with ⟨e, he, rfl⟩
  simpa using hs e he

theorem CapOK_oneRound (alg : MovingAlg)
    (gen : Nat → List (Nat × List Person)) (nf : Nat)
    (halg : PreservesShape alg) {s : SimState} (hs : CapOK s) (i : Nat) :
    CapOK (oneRound alg gen nf s i) :=
  CapOK_tick (CapOK_move alg nf halg
    (CapOK_board (CapOK_arrivals (gen i) (CapOK_disembark hs))))

theorem CapOK_rounds (alg : MovingAlg)
    (gen : Nat → List (Nat × List Person)) (nf : Nat)
    (halg : PreservesShape alg) {s : SimState} (hs : CapOK s) :
    ∀ n, CapOK ((List.range n).foldl (oneRound alg gen nf) s) := by
  intro n
  induction n with
  | zero => exact hs
  | succ n ih =>
      rw [List.range_succ, List.foldl_append, List.foldl_cons, List.foldl_nil]
      exact CapOK_oneRound alg gen nf halg ih n

/-- Claim C3: from any state satisfying the capacity invariant, every
stage of a round — disembark, arrivals, board, retarget-and-move (for any
moving algorithm that only retargets), tick — keeps every elevator's
passenger count at or below its capacity, and hence so does any number of
full rounds. -/
theorem C3_capacity_invariant (alg : MovingAlg)
    (gen : Nat → List (Nat × List Person)) (nf : Nat)
    (halg : PreservesShape alg) (s : SimState) (hs : CapOK s) :
    CapOK (handle_disembarking s)
    ∧ (∀ a, CapOK (generate_arrivals a s))
    ∧ CapOK (board_stage s)
    ∧ CapOK (move_elevators alg nf s)
    ∧ CapOK (update_wait_times s)
    ∧ ∀ n, CapOK ((List.range n).foldl (oneRound alg gen nf) s) :=
  ⟨CapOK_disembark hs, fun a => CapOK_arrivals a hs, CapOK_board hs,
    CapOK_move alg nf halg hs, CapOK_tick hs,
    CapOK_rounds alg gen nf halg hs⟩

/-- Witness for C3: two rounds of a 3-floor, one-elevator, capacity-1
simulation driven by `SingleArrivals` and `FurthestFloor` keep the
invariant. -/
theorem C3_capacity_invariant_witness :
    CapOK ((List.range 2).foldl
      (oneRound FurthestFloor.update_target_floors (SingleArrivals.generate 3) 3)
      (SimState.init 3 1 1)) :=
  (C3_capacity_invariant FurthestFloor.update_target_floors
    (SingleArrivals.generate 3) 3 furthestFloor_preservesShape
    (SimState.init 3 1 1)
    (by unfold CapOK SimState.init; decide)).2.2.2.2.2 2

/-- The people of an arrival mapping, in dict order. -/
def flatArrivals (a : List (Nat × List Person)) : List Person :=
  (a.map Prod.snd).flatten

/-- The arrivals of rounds 0 .. n−1, concatenated. -/
def roundsFlat (gen : Nat → List (Nat × List Person)) (n : Nat) :
    List Person :=
  ((List.range n).map fun i => flatArrivals (gen i)).flatten

theorem arrivalsFold_total (a : List (Nat × List Person))
    (wt : List (Nat × List Person) × List Person) :
    (a.foldl (fun (acc : List (Nat × List Person) × List Person) kv =>
      (extendWaiting acc.1 kv.1 kv.2, acc.2 ++ kv.2)) wt).2
      = wt.2 ++ flatArrivals a := by
  induction a generalizing wt with
  | nil => simp [flatArrivals]
  | cons kv rest ih =>
      rw [List.foldl_cons, ih]
      simp [flatArrivals]

theorem generate_arrivals_total (a : List (Nat × List Person))
    (s : SimState) :
    (generate_arrivals a s).total_people
      = s.total_people ++ flatArrivals a :=
  arrivalsFold_total a (s.waiting, s.total_people)

theorem oneRound_total (alg : MovingAlg)
    (gen : Nat → List (Nat × List Person)) (nf : Nat) (s : SimState)
    (i : Nat) :
    (oneRound alg gen nf s i).total_people
      = s.total_people ++ flatArrivals (gen i) := by
  show (generate_arrivals (gen i) (handle_disembarking s)).total_people = _
  rw [generate_arrivals_total]
  rfl

theorem runRounds_total (alg : MovingAlg)
    (gen : Nat → List (Nat × List Person)) (nf : Nat) (n : Nat)
    (s : SimState) :
    ((List.range n).foldl (oneRound alg gen nf) s).total_people
      = s.total_people ++ roundsFlat gen n := by
  induction n with
  | zero => simp [roundsFlat]
  | succ n ih =>
      rw [List.range_succ, List.foldl_append, List.foldl_cons, List.foldl_nil,
        oneRound_total, ih]
      simp [roundsFlat, List.range_succ]

/-- Claim C6 fails on the code: `Simulation.run` contains no guard
against a second invocation.  On a concrete finished instance (2 floors,
one elevator of capacity 1, `SingleArrivals`, `EndToEndLoop`, 2 rounds) a
second `run` returns statistics normally and has executed two further
rounds: `total_people` grows from 2 to 4 and two people complete. -/
theorem C6_second_run_executes :
    ((run EndToEndLoop.update_target_floors (SingleArrivals.generate 2) 2 2
        (SimState.init 2 1 1)).2).total_people.length = 2
    ∧ ((run EndToEndLoop.update_target_floors (SingleArrivals.generate 2) 2 2
        ((run EndToEndLoop.update_target_floors (SingleArrivals.generate 2) 2 2
          (SimState.init 2 1 1)).2)).2).total_people.length = 4
    ∧ (run EndToEndLoop.update_target_floors (SingleArrivals.generate 2) 2 2
        ((run EndToEndLoop.update_target_floors (SingleArrivals.generate 2) 2 2
          (SimState.init 2 1 1)).2)).1.people_completed = 2 := by
  decide

/-- Claim C6 amended: a second call to `run` is not rejected; it silently
executes `num_rounds` further rounds on the accumulated state — the round
counter restarts at 0, so the same arrival schedule replays — and returns
statistics computed from that doubly-run state. -/
theorem C6_second_run_silently_reruns (alg : MovingAlg)
    (gen : Nat → List (Nat × List Person)) (nf n : Nat) (s : SimState) :
    (run alg gen nf n ((run alg gen nf n s).2)).2.total_people
      = s.total_people ++ roundsFlat gen n ++ roundsFlat gen n
    ∧ (run alg gen nf n ((run alg gen nf n s).2)).1
      = calculate_stats
          ((List.range n).foldl (oneRound alg gen nf)
            ((List.range n).foldl (oneRound alg gen nf) s)) n := by
  constructor
  · show ((List.range n).foldl (oneRound alg gen nf)
      ((List.range n).foldl (oneRound alg gen nf) s)).total_people = _
    rw [runRounds_total, runRounds_total]
  · rfl

end ES
